import Mathlib

/- Shallow embedding of the console line editor in src/console.c (xv6 style).
   Ring indices grow without bound and every buffer access masks by the ring
   size, exactly as in the source.  Machine words are modelled as Nat with
   explicit wrap by 2 to the 32 where the source can underflow a uint. -/

namespace Console

/-- Size of the input ring, INPUT_BUF in console.c. -/
def INPUT_BUF : Nat := 128

/-- Size of the undo stack, UNDO_BUF in console.c. -/
def UNDO_BUF : Nat := 128

/-- Size of the clipboard, CLIPBOARD_BUF in console.c. -/
def CLIPBOARD_BUF : Nat := 128

/-- Modelled from the spec: KEY_LF and KEY_RT are the platform arrow key
    sentinels delivered by the keyboard driver (kbd.h is not part of the
    sources); only their distinctness from the other dispatched codes is
    used anywhere.  The values are the classical xv6 ones. -/
def KEY_LF : Nat := 0xE4

/-- Modelled from the spec: right arrow sentinel, see KEY_LF. -/
def KEY_RT : Nat := 0xE5

/-- Tag of an undo log entry, enum OP_INSERT / OP_DELETE in console.c. -/
inductive OpType where
  | insert
  | delete
deriving DecidableEq

/-- One undo log entry, struct op in console.c: a tag, the byte value and
    the logical position at which the operation applied. -/
structure Op where
  type : OpType
  c : Nat
  pos : Nat
deriving DecidableEq

/-- Whole mutable state of the console input machinery: the input ring with
    its four indices, the selection state, the clipboard and the undo log.
    undo_n is the uint undo.n of the source and may wrap. -/
structure Machine where
  buf : List Nat
  r : Nat
  w : Nat
  e : Nat
  c : Nat
  selecting : Bool
  sel_start : Int
  sel_end : Int
  clip_buf : List Nat
  clip_n : Nat
  undo_buf : List Op
  undo_n : Nat
deriving DecidableEq

/-- Read of the input ring: input.buf[i % INPUT_BUF]. -/
def bufGet (l : List Nat) (i : Nat) : Nat := l.getD (i % INPUT_BUF) 0

/-- Write of the input ring: input.buf[i % INPUT_BUF] = v. -/
def bufSet (l : List Nat) (i : Nat) (v : Nat) : List Nat := l.set (i % INPUT_BUF) v

/-- is_whitespace from console.c. -/
def isWhitespace (c : Nat) : Bool := c == 32 || c == 9 || c == 10 || c == 11

/-- clear_selection from console.c: drop both endpoints (when a start was
    recorded) and reset the selecting latch.  The highlight repaint touches
    only video memory and is not part of the machine state. -/
def clearSelection (st : Machine) : Machine :=
  if st.sel_start ≠ -1 then
    { st with sel_start := -1, sel_end := -1, selecting := false }
  else
    { st with selecting := false }

/-- deselect_if_any from console.c: clear only a completed selection. -/
def deselect (st : Machine) : Machine :=
  if st.sel_start ≠ -1 ∧ st.sel_end ≠ -1 then clearSelection st else st

/-- Append one entry at undo.buf[undo.n] and bump undo.n; callers guard
    with undo.n < UNDO_BUF exactly as the source does. -/
def pushUndo (st : Machine) (op : Op) : Machine :=
  { st with undo_buf := st.undo_buf.set st.undo_n op, undo_n := st.undo_n + 1 }

/-- The descending copy loop of an insertion, for (i = e; i > c; i--)
    buf[i % B] = buf[(i-1) % B]; the counter k+1 plays the role of i - lo. -/
def shiftRightGo (lo : Nat) (buf : List Nat) : Nat → List Nat
  | 0 => buf
  | k + 1 => shiftRightGo lo (bufSet buf (lo + k + 1) (bufGet buf (lo + k))) k

/-- The ascending copy loop of a deletion, for (i = lo; i < hi; i++)
    buf[(i - len) % B] = buf[i % B]; the counter is hi - lo. -/
def shiftLeftGo (len : Nat) (i : Nat) (buf : List Nat) : Nat → List Nat
  | 0 => buf
  | k + 1 => shiftLeftGo len (i + 1) (bufSet buf (i - len) (bufGet buf i)) k

/-- The guarded insert-with-undo used verbatim by the default branch and by
    the paste loop of consoleintr: room check, best effort undo log entry,
    shift of [c, e) one slot right, store, advance e and c. -/
def insertChar (st : Machine) (ch : Nat) : Machine :=
  if st.e < st.r + INPUT_BUF then
    let st1 := if st.undo_n < UNDO_BUF then
                 pushUndo st ⟨OpType.insert, ch % 256, st.c⟩
               else st
    let buf1 := shiftRightGo st.c st1.buf (st.e - st.c)
    { st1 with buf := bufSet buf1 st.c (ch % 256), e := st.e + 1, c := st.c + 1 }
  else st

/-- The recording loop of delete_selection, for (k = 0; k < len && undo.n <
    UNDO_BUF; k++) push a DELETE entry for the byte at s + k. -/
def recDelGo (sN : Nat) (st : Machine) (k : Nat) : Nat → Machine
  | 0 => st
  | cnt + 1 =>
    if st.undo_n < UNDO_BUF then
      recDelGo sN (pushUndo st ⟨OpType.delete, bufGet st.buf (sN + k), sN + k⟩) (k + 1) cnt
    else st

/-- Body of delete_selection from console.c once the range [s2, e2) has
    been normalized and clamped: record DELETE entries best effort, shift
    the tail left, shrink e, move the caret to the start of the range and
    clear the selection.  Screen repainting is display only and unmodelled. -/
def delSelCore (st : Machine) (s2 e2 : Int) : Machine :=
  if s2 ≥ e2 then clearSelection st
  else
    let sN := s2.toNat
    let eN := e2.toNat
    let len := eN - sN
    let st1 := recDelGo sN st 0 len
    let buf1 := shiftLeftGo len eN st1.buf (st.e - eN)
    clearSelection { st1 with buf := buf1, e := st.e - len, c := sN }

/-- delete_selection from console.c, after the swap and the clamping of the
    endpoints: see delSelCore for the recording, shifting and index part. -/
def deleteSelection (st : Machine) : Machine :=
  if st.sel_start = -1 ∨ st.sel_end = -1 then st
  else
    let s1 : Int := if st.sel_start > st.sel_end then st.sel_end else st.sel_start
    let e1 : Int := if st.sel_start > st.sel_end then st.sel_start else st.sel_end
    let s2 : Int := if s1 < (st.w : Int) then (st.w : Int) else s1
    let e2 : Int := if e1 > (st.e : Int) then (st.e : Int) else e1
    delSelCore st s2 e2

/-- First press of C-S starts a selection at the caret, second press closes
    it, ordering the endpoints and discarding an empty range. -/
def doSelect (st : Machine) : Machine :=
  if st.selecting = false then
    let st1 := clearSelection st
    { st1 with selecting := true, sel_start := (st1.c : Int), sel_end := -1 }
  else
    let st1 := { st with selecting := false, sel_end := (st.c : Int) }
    let st2 := if st1.sel_start > st1.sel_end then
                 { st1 with sel_start := st1.sel_end, sel_end := st1.sel_start }
               else st1
    if st2.sel_start = st2.sel_end then
      { st2 with sel_start := -1, sel_end := -1 }
    else st2

/-- The copy loop of C-C, clipboard.buf[i] = input.buf[(s + i) % B]. -/
def copyGo (src : List Nat) (sN : Nat) (clip : List Nat) (i : Nat) : Nat → List Nat
  | 0 => clip
  | k + 1 => copyGo src sN (clip.set i (bufGet src (sN + i))) (i + 1) k

/-- C-C from consoleintr: with a completed selection, clamp it to [w, e),
    truncate at CLIPBOARD_BUF and copy into the clipboard; the length is
    stored through the uint clipboard.n, hence the explicit wrap.  Without
    a completed selection, clear the selection and empty the clipboard. -/
def doCopy (st : Machine) : Machine :=
  if st.sel_start ≠ -1 ∧ st.sel_end ≠ -1 then
    let s1 : Int := if st.sel_start > st.sel_end then st.sel_end else st.sel_start
    let e1 : Int := if st.sel_start > st.sel_end then st.sel_start else st.sel_end
    let s2 : Int := if s1 < (st.w : Int) then (st.w : Int) else s1
    let e2 : Int := if e1 > (st.e : Int) then (st.e : Int) else e1
    let len : Int := e2 - s2
    let len2 : Int := if len > (CLIPBOARD_BUF : Int) then (CLIPBOARD_BUF : Int) else len
    { st with clip_buf := copyGo st.buf s2.toNat st.clip_buf 0 len2.toNat,
              clip_n := (len2.emod (2 ^ 32)).toNat }
  else
    let st1 := clearSelection st
    { st1 with clip_n := 0 }

/-- The paste loop of C-V, one guarded insert per clipboard byte. -/
def pasteGo (st : Machine) (i : Nat) : Nat → Machine
  | 0 => st
  | k + 1 => pasteGo (insertChar st (st.clip_buf.getD i 0)) (i + 1) k

/-- C-V from consoleintr: with a non empty clipboard, first delete a
    completed selection, then insert every clipboard byte with the common
    insertion logic; finally clear any selection. -/
def doPaste (st : Machine) : Machine :=
  let st1 :=
    if 0 < st.clip_n then
      let st0 := if st.sel_start ≠ -1 ∧ st.sel_end ≠ -1 then deleteSelection st else st
      pasteGo st0 0 st0.clip_n
    else st
  clearSelection (deselect st1)

/-- The first while loop of C-A, skipping whitespace leftwards. -/
def skipWsBack (buf : List Nat) (w : Nat) : Nat → Nat
  | 0 => 0
  | t + 1 =>
    if w < t + 1 ∧ isWhitespace (bufGet buf (t + 1)) then skipWsBack buf w t
    else t + 1

/-- The second while loop of C-A, skipping a word leftwards; the source
    tests the byte before the cursor. -/
def skipWordBack (buf : List Nat) (w : Nat) : Nat → Nat
  | 0 => 0
  | t + 1 =>
    if w < t + 1 ∧ ¬ isWhitespace (bufGet buf t) then skipWordBack buf w t
    else t + 1

/-- C-A from consoleintr: move the caret back one word, stopping at w. -/
def doWordBack (st : Machine) : Machine :=
  let st1 := deselect st
  if st1.w < st1.c then
    { st1 with c := skipWordBack st1.buf st1.w (skipWsBack st1.buf st1.w (st1.c - 1)) }
  else st1

/-- The first while loop of forward word motion, skipping non whitespace;
    the fuel e - t makes the loop structural. -/
def skipNonWsFwd (buf : List Nat) (e : Nat) (t : Nat) : Nat → Nat
  | 0 => t
  | fuel + 1 =>
    if t < e ∧ ¬ isWhitespace (bufGet buf t) then skipNonWsFwd buf e (t + 1) fuel
    else t

/-- The second while loop of forward word motion, skipping whitespace. -/
def skipWsFwd (buf : List Nat) (e : Nat) (t : Nat) : Nat → Nat
  | 0 => t
  | fuel + 1 =>
    if t < e ∧ isWhitespace (bufGet buf t) then skipWsFwd buf e (t + 1) fuel
    else t

/-- C-D from consoleintr: on an empty editable region inject a literal C-D
    byte and commit it (EOF); otherwise move the caret forward one word,
    never reaching e. -/
def doFwdOrEof (st : Machine) : Machine :=
  let st1 := deselect st
  if st1.e = st1.w then
    { st1 with buf := bufSet st1.buf st1.e 4, e := st1.e + 1,
               w := st1.e + 1, c := st1.e + 1 }
  else if st1.c < st1.e then
    let t1 := skipNonWsFwd st1.buf st1.e st1.c (st1.e - st1.c)
    let t2 := skipWsFwd st1.buf st1.e t1 (st1.e - t1)
    if t2 < st1.e then { st1 with c := t2 } else st1
  else st1

/-- C-U from consoleintr: when the editable region is non empty, its erase
    loop walks e and c down in lockstep until e = w, then sets c = w and
    clears the undo log; the screen writes are display only. -/
def doKill (st : Machine) : Machine :=
  let st1 := deselect st
  if st1.e ≠ st1.w then
    { st1 with e := st1.w, c := st1.w, undo_n := 0 }
  else st1

/-- C-H / DEL from consoleintr: clear a completed selection, then when the
    caret is past w decrement the uint undo.n (the DELETE recording is
    commented out in the source, the unguarded decrement wraps at zero),
    shift [c, e) one slot left and pull e and c back. -/
def doBackspace (st : Machine) : Machine :=
  let st1 := deselect st
  if st1.w < st1.c then
    let n1 := if st1.undo_n = 0 then 2 ^ 32 - 1 else st1.undo_n - 1
    { st1 with undo_n := n1,
               buf := shiftLeftGo 1 st1.c st1.buf (st1.e - st1.c),
               e := st1.e - 1, c := st1.c - 1 }
  else st1

/-- C-Z from consoleintr: pop the newest entry; an INSERT whose position is
    still inside [w, e) is inverted by deleting that byte and moving the
    caret there; a DELETE entry is popped with no effect (its inverter is
    commented out in the source).  A pop past slot UNDO_BUF, possible only
    after undo.n has wrapped, is an out of bounds read in the source and
    yields the default entry here. -/
def doUndo (st : Machine) : Machine :=
  let st1 := deselect st
  if 0 < st1.undo_n then
    let n1 := st1.undo_n - 1
    let last := st1.undo_buf.getD n1 ⟨OpType.insert, 0, 0⟩
    let st2 := { st1 with undo_n := n1 }
    match last.type with
    | OpType.insert =>
      if last.pos < st2.w ∨ st2.e ≤ last.pos then st2
      else
        { st2 with buf := shiftLeftGo 1 (last.pos + 1) st2.buf (st2.e - (last.pos + 1)),
                   e := st2.e - 1, c := last.pos }
    | OpType.delete => st2
  else st1

/-- KEY_LF from consoleintr. -/
def doLeft (st : Machine) : Machine :=
  let st1 := deselect st
  if st1.w < st1.c then { st1 with c := st1.c - 1 } else st1

/-- KEY_RT from consoleintr. -/
def doRight (st : Machine) : Machine :=
  let st1 := deselect st
  if st1.c < st1.e then { st1 with c := st1.c + 1 } else st1

/-- The default branch of consoleintr: ignore NUL, map CR to LF, commit on
    LF or on a full ring (append an LF byte, advance w and c, clear the
    undo log), otherwise insert the byte at the caret. -/
def doDefault (st : Machine) (c : Nat) : Machine :=
  if c ≠ 0 then
    let st1 := deselect st
    let c2 := if c = 13 then 10 else c
    if c2 = 10 ∨ st1.e = st1.r + INPUT_BUF then
      { st1 with buf := bufSet st1.buf st1.e 10, e := st1.e + 1,
                 w := st1.e + 1, c := st1.e + 1, undo_n := 0 }
    else insertChar st1 c2
  else st

/-- One dispatch of the switch in consoleintr for a single key code. -/
def consoleintrKey (st : Machine) (c : Nat) : Machine :=
  if c = 19 then doSelect st
  else if c = 3 then doCopy st
  else if c = 22 then doPaste st
  else if c = 1 then doWordBack st
  else if c = 4 then doFwdOrEof st
  else if c = 16 then deselect st
  else if c = 21 then doKill st
  else if c = 8 ∨ c = 127 then doBackspace st
  else if c = 26 then doUndo st
  else if c = KEY_LF then doLeft st
  else if c = KEY_RT then doRight st
  else doDefault st c

/-- consoleintr draining a whole list of key codes. -/
def consoleintr (st : Machine) (ks : List Nat) : Machine :=
  ks.foldl consoleintrKey st

/-- The state set up by consoleinit: all indices and counters zero. -/
def initState : Machine :=
  { buf := List.replicate INPUT_BUF 0, r := 0, w := 0, e := 0, c := 0,
    selecting := false, sel_start := -1, sel_end := -1,
    clip_buf := List.replicate CLIPBOARD_BUF 0, clip_n := 0,
    undo_buf := List.replicate UNDO_BUF ⟨OpType.insert, 0, 0⟩, undo_n := 0 }

/-- consoleintr applied to a key list from the freshly initialised state. -/
def runKeys (ks : List Nat) : Machine :=
  consoleintr initState ks

/-- The copy loop of consoleread with its remaining count as fuel: stop
    when n reaches 0, report none where the source would sleep on an empty
    ring, consume one byte per step, handle the C-D EOF byte (push r back
    when this call already copied something) and stop after a newline. -/
def readLoopGo (target : Nat) : Nat → Machine → List Nat → Option (List Nat × Machine)
  | 0, st, acc => some (acc, st)
  | n + 1, st, acc =>
    if st.r = st.w then none
    else
      let ch := bufGet st.buf st.r
      let st1 := { st with r := st.r + 1 }
      if ch = 4 then
        if n + 1 < target then some (acc, { st1 with r := st1.r - 1 })
        else some (acc, st1)
      else
        let acc1 := acc ++ [ch]
        if ch = 10 then some (acc1, st1)
        else readLoopGo target n st1 acc1

/-- consoleread on the machine state: the copied bytes, the state after the
    call and the return value target - n; none when the call would block in
    sleep.  The inode lock bracketing is outside the model. -/
def consoleread (st : Machine) (n : Nat) : Option (List Nat × Machine × Nat) :=
  match readLoopGo n n st [] with
  | none => none
  | some (xs, st1) => some (xs, st1, xs.length)

/-- Bytes returned by a consoleread, when it does not block. -/
def readBytes (st : Machine) (n : Nat) : Option (List Nat) :=
  (consoleread st n).map (fun x => x.1)

/-- Return value of a consoleread, when it does not block. -/
def readRet (st : Machine) (n : Nat) : Option Nat :=
  (consoleread st n).map (fun x => x.2.2)

/-- Machine state after a consoleread, when it does not block. -/
def readNext (st : Machine) (n : Nat) : Option Machine :=
  (consoleread st n).map (fun x => x.2.1)

/-- The editable region [w, e) of the line buffer as a list of bytes. -/
def regionContent (st : Machine) : List Nat :=
  (List.range (st.e - st.w)).map (fun i => bufGet st.buf (st.w + i))

/- Basic facts about ring reads and writes. -/

theorem length_bufSet (l : List Nat) (i v : Nat) : (bufSet l i v).length = l.length := by
  simp [bufSet]

theorem bufGet_bufSet_self (l : List Nat) (i v : Nat) (h : l.length = INPUT_BUF) :
    bufGet (bufSet l i v) i = v := by
  have hlt : i % INPUT_BUF < l.length := by
    rw [h]; exact Nat.mod_lt _ (by decide)
  simp [bufGet, bufSet, List.getD_eq_getElem?_getD, List.getElem?_set_self, hlt]

theorem bufGet_bufSet_other (l : List Nat) (i j v : Nat)
    (h : i % INPUT_BUF ≠ j % INPUT_BUF) :
    bufGet (bufSet l i v) j = bufGet l j := by
  simp [bufGet, bufSet, List.getD_eq_getElem?_getD, List.getElem?_set_ne, h]

/- The selection helpers touch no index, no buffer and no log. -/

theorem clearSelection_r (st : Machine) : (clearSelection st).r = st.r := by
  unfold clearSelection; split <;> rfl

theorem clearSelection_w (st : Machine) : (clearSelection st).w = st.w := by
  unfold clearSelection; split <;> rfl

theorem clearSelection_e (st : Machine) : (clearSelection st).e = st.e := by
  unfold clearSelection; split <;> rfl

theorem clearSelection_c (st : Machine) : (clearSelection st).c = st.c := by
  unfold clearSelection; split <;> rfl

theorem clearSelection_buf (st : Machine) : (clearSelection st).buf = st.buf := by
  unfold clearSelection; split <;> rfl

theorem clearSelection_undo_buf (st : Machine) : (clearSelection st).undo_buf = st.undo_buf := by
  unfold clearSelection; split <;> rfl

theorem clearSelection_undo_n (st : Machine) : (clearSelection st).undo_n = st.undo_n := by
  unfold clearSelection; split <;> rfl

theorem clearSelection_clip_buf (st : Machine) : (clearSelection st).clip_buf = st.clip_buf := by
  unfold clearSelection; split <;> rfl

theorem clearSelection_clip_n (st : Machine) : (clearSelection st).clip_n = st.clip_n := by
  unfold clearSelection; split <;> rfl

theorem deselect_r (st : Machine) : (deselect st).r = st.r := by
  unfold deselect; split <;> simp [clearSelection_r]

theorem deselect_w (st : Machine) : (deselect st).w = st.w := by
  unfold deselect; split <;> simp [clearSelection_w]

theorem deselect_e (st : Machine) : (deselect st).e = st.e := by
  unfold deselect; split <;> simp [clearSelection_e]

theorem deselect_c (st : Machine) : (deselect st).c = st.c := by
  unfold deselect; split <;> simp [clearSelection_c]

theorem deselect_buf (st : Machine) : (deselect st).buf = st.buf := by
  unfold deselect; split <;> simp [clearSelection_buf]

theorem deselect_undo_buf (st : Machine) : (deselect st).undo_buf = st.undo_buf := by
  unfold deselect; split <;> simp [clearSelection_undo_buf]

theorem deselect_undo_n (st : Machine) : (deselect st).undo_n = st.undo_n := by
  unfold deselect; split <;> simp [clearSelection_undo_n]

theorem deselect_clip_buf (st : Machine) : (deselect st).clip_buf = st.clip_buf := by
  unfold deselect; split <;> simp [clearSelection_clip_buf]

theorem deselect_clip_n (st : Machine) : (deselect st).clip_n = st.clip_n := by
  unfold deselect; split <;> simp [clearSelection_clip_n]

/- Bounds of the word motion loops. -/

theorem skipWsBack_le (buf : List Nat) (w t : Nat) : skipWsBack buf w t ≤ t := by
  induction t with
  | zero => simp [skipWsBack]
  | succ t ih =>
    unfold skipWsBack
    split
    · exact Nat.le_trans ih (Nat.le_succ t)
    · exact Nat.le_refl _

theorem skipWsBack_ge (buf : List Nat) (w t : Nat) (h : w ≤ t) : w ≤ skipWsBack buf w t := by
  induction t with
  | zero => simpa [skipWsBack] using h
  | succ t ih =>
    unfold skipWsBack
    split
    · next hc => exact ih (by omega)
    · exact h

theorem skipWordBack_le (buf : List Nat) (w t : Nat) : skipWordBack buf w t ≤ t := by
  induction t with
  | zero => simp [skipWordBack]
  | succ t ih =>
    unfold skipWordBack
    split
    · exact Nat.le_trans ih (Nat.le_succ t)
    · exact Nat.le_refl _

theorem skipWordBack_ge (buf : List Nat) (w t : Nat) (h : w ≤ t) : w ≤ skipWordBack buf w t := by
  induction t with
  | zero => simpa [skipWordBack] using h
  | succ t ih =>
    unfold skipWordBack
    split
    · next hc => exact ih (by omega)
    · exact h

theorem skipNonWsFwd_ge (buf : List Nat) (e : Nat) (t fuel : Nat) :
    t ≤ skipNonWsFwd buf e t fuel := by
  induction fuel generalizing t with
  | zero => simp [skipNonWsFwd]
  | succ fuel ih =>
    unfold skipNonWsFwd
    split
    · exact Nat.le_trans (Nat.le_succ t) (ih (t + 1))
    · exact Nat.le_refl _

theorem skipWsFwd_ge (buf : List Nat) (e : Nat) (t fuel : Nat) :
    t ≤ skipWsFwd buf e t fuel := by
  induction fuel generalizing t with
  | zero => simp [skipWsFwd]
  | succ fuel ih =>
    unfold skipWsFwd
    split
    · exact Nat.le_trans (Nat.le_succ t) (ih (t + 1))
    · exact Nat.le_refl _


/- Preservation of the index ordering invariant: r is never written by the
   interrupt path, w only jumps forward to e on commits, the caret stays
   inside the editable region, and e stays within r + INPUT_BUF except that
   a commit taken on a full ring (and every later commit) leaves w = e. -/

def Inv (st : Machine) : Prop :=
  st.r ≤ st.w ∧ st.w ≤ st.c ∧ st.c ≤ st.e ∧ (st.e ≤ st.r + INPUT_BUF ∨ st.w = st.e)

theorem inv_of_fields (st st2 : Machine) (hr : st2.r = st.r) (hw : st2.w = st.w)
    (hc : st2.c = st.c) (he : st2.e = st.e) (h : Inv st) : Inv st2 := by
  rw [Inv, hr, hw, hc, he]; exact h

theorem inv_clearSelection (st : Machine) (h : Inv st) : Inv (clearSelection st) :=
  inv_of_fields st _ (clearSelection_r st) (clearSelection_w st) (clearSelection_c st)
    (clearSelection_e st) h

theorem inv_deselect (st : Machine) (h : Inv st) : Inv (deselect st) :=
  inv_of_fields st _ (deselect_r st) (deselect_w st) (deselect_c st) (deselect_e st) h

theorem deselect_inv_iff (st : Machine) : Inv (deselect st) ↔ Inv st := by
  rw [Inv, Inv, deselect_r, deselect_w, deselect_c, deselect_e]

theorem pushUndo_r (st : Machine) (op : Op) : (pushUndo st op).r = st.r := rfl

theorem pushUndo_w (st : Machine) (op : Op) : (pushUndo st op).w = st.w := rfl

theorem pushUndo_e (st : Machine) (op : Op) : (pushUndo st op).e = st.e := rfl

theorem pushUndo_c (st : Machine) (op : Op) : (pushUndo st op).c = st.c := rfl

theorem pushUndo_buf (st : Machine) (op : Op) : (pushUndo st op).buf = st.buf := rfl

theorem inv_insertChar (st : Machine) (ch : Nat) (h : Inv st) : Inv (insertChar st ch) := by
  obtain ⟨h1, h2, h3, h4⟩ := h
  simp only [insertChar]
  split
  · split
    · refine ⟨?_, ?_, ?_, Or.inl ?_⟩ <;> dsimp [pushUndo] <;> omega
    · refine ⟨?_, ?_, ?_, Or.inl ?_⟩ <;> dsimp <;> omega
  · exact ⟨h1, h2, h3, h4⟩

theorem recDelGo_fields (sN : Nat) : ∀ (cnt k : Nat) (st : Machine),
    (recDelGo sN st k cnt).r = st.r ∧ (recDelGo sN st k cnt).w = st.w ∧
    (recDelGo sN st k cnt).e = st.e ∧ (recDelGo sN st k cnt).c = st.c ∧
    (recDelGo sN st k cnt).buf = st.buf := by
  intro cnt
  induction cnt with
  | zero => intro k st; simp [recDelGo]
  | succ cnt ih =>
    intro k st
    unfold recDelGo
    split
    · have := ih (k + 1) (pushUndo st ⟨OpType.delete, bufGet st.buf (sN + k), sN + k⟩)
      simpa [pushUndo] using this
    · simp

theorem inv_delSelCore (st : Machine) (s2 e2 : Int) (hs : (st.w : Int) ≤ s2)
    (he : e2 ≤ (st.e : Int)) (h : Inv st) : Inv (delSelCore st s2 e2) := by
  obtain ⟨h1, h2, h3, h4⟩ := h
  simp only [delSelCore]
  split
  · exact inv_clearSelection st ⟨h1, h2, h3, h4⟩
  · next hlt =>
    have hfld := recDelGo_fields s2.toNat (e2.toNat - s2.toNat) 0 st
    refine inv_of_fields { st with e := st.e - (e2.toNat - s2.toNat), c := s2.toNat } _
      ?_ ?_ ?_ ?_ ?_
    · rw [clearSelection_r]; exact hfld.1
    · rw [clearSelection_w]; exact hfld.2.1
    · rw [clearSelection_c]
    · rw [clearSelection_e]
    · refine ⟨?_, ?_, ?_, ?_⟩ <;> dsimp <;> omega

theorem inv_deleteSelection (st : Machine) (h : Inv st) : Inv (deleteSelection st) := by
  simp only [deleteSelection]
  split
  · exact h
  · apply inv_delSelCore st _ _ ?_ ?_ h
    · split_ifs <;> omega
    · split_ifs <;> omega

theorem inv_doSelect (st : Machine) (h : Inv st) : Inv (doSelect st) := by
  simp only [doSelect]
  split
  · exact inv_of_fields st _ (clearSelection_r st) (clearSelection_w st)
      (clearSelection_c st) (clearSelection_e st) h
  · split <;> split <;> exact h

theorem inv_doCopy (st : Machine) (h : Inv st) : Inv (doCopy st) := by
  simp only [doCopy]
  split
  · exact h
  · exact inv_of_fields st _ (clearSelection_r st) (clearSelection_w st)
      (clearSelection_c st) (clearSelection_e st) h

theorem inv_pasteGo (st : Machine) : ∀ (cnt i : Nat), Inv st → Inv (pasteGo st i cnt) := by
  intro cnt
  induction cnt generalizing st with
  | zero => intro i h; simpa [pasteGo] using h
  | succ cnt ih =>
    intro i h
    unfold pasteGo
    exact ih _ _ (inv_insertChar _ _ h)

theorem inv_doPaste (st : Machine) (h : Inv st) : Inv (doPaste st) := by
  simp only [doPaste]
  apply inv_clearSelection
  apply inv_deselect
  split
  · split
    · exact inv_pasteGo _ _ _ (inv_deleteSelection st h)
    · exact inv_pasteGo _ _ _ h
  · exact h

theorem inv_doWordBack (st : Machine) (h : Inv st) : Inv (doWordBack st) := by
  rw [← deselect_inv_iff st] at h
  obtain ⟨h1, h2, h3, h4⟩ := h
  simp only [doWordBack]
  split
  · next hlt =>
    have ha := skipWordBack_le (deselect st).buf (deselect st).w
      (skipWsBack (deselect st).buf (deselect st).w ((deselect st).c - 1))
    have hb := skipWsBack_le (deselect st).buf (deselect st).w ((deselect st).c - 1)
    have hc := skipWordBack_ge (deselect st).buf (deselect st).w
      (skipWsBack (deselect st).buf (deselect st).w ((deselect st).c - 1))
      (skipWsBack_ge (deselect st).buf (deselect st).w ((deselect st).c - 1) (by omega))
    refine ⟨?_, ?_, ?_, ?_⟩ <;> dsimp <;> omega
  · exact ⟨h1, h2, h3, h4⟩

theorem inv_doFwdOrEof (st : Machine) (h : Inv st) : Inv (doFwdOrEof st) := by
  rw [← deselect_inv_iff st] at h
  obtain ⟨h1, h2, h3, h4⟩ := h
  simp only [doFwdOrEof]
  split
  · refine ⟨?_, ?_, ?_, Or.inr ?_⟩ <;> dsimp <;> omega
  · split
    · split
      · next hce hlt =>
        have ha := skipNonWsFwd_ge (deselect st).buf (deselect st).e (deselect st).c
          ((deselect st).e - (deselect st).c)
        have hb := skipWsFwd_ge (deselect st).buf (deselect st).e
          (skipNonWsFwd (deselect st).buf (deselect st).e (deselect st).c
            ((deselect st).e - (deselect st).c))
          ((deselect st).e - skipNonWsFwd (deselect st).buf (deselect st).e (deselect st).c
            ((deselect st).e - (deselect st).c))
        refine ⟨h1, ?_, ?_, h4⟩ <;> dsimp <;> omega
      · exact ⟨h1, h2, h3, h4⟩
    · exact ⟨h1, h2, h3, h4⟩

theorem inv_doKill (st : Machine) (h : Inv st) : Inv (doKill st) := by
  rw [← deselect_inv_iff st] at h
  obtain ⟨h1, h2, h3, h4⟩ := h
  simp only [doKill]
  split
  · refine ⟨?_, ?_, ?_, Or.inr ?_⟩ <;> dsimp <;> omega
  · exact ⟨h1, h2, h3, h4⟩

theorem inv_doBackspace (st : Machine) (h : Inv st) : Inv (doBackspace st) := by
  rw [← deselect_inv_iff st] at h
  obtain ⟨h1, h2, h3, h4⟩ := h
  simp only [doBackspace]
  split
  · refine ⟨?_, ?_, ?_, ?_⟩ <;> dsimp <;> omega
  · exact ⟨h1, h2, h3, h4⟩

theorem inv_doUndo (st : Machine) (h : Inv st) : Inv (doUndo st) := by
  rw [← deselect_inv_iff st] at h
  obtain ⟨h1, h2, h3, h4⟩ := h
  simp only [doUndo]
  split
  · split
    · split
      · exact ⟨h1, h2, h3, h4⟩
      · refine ⟨?_, ?_, ?_, ?_⟩ <;> dsimp <;> omega
    · exact ⟨h1, h2, h3, h4⟩
  · exact ⟨h1, h2, h3, h4⟩

theorem inv_doLeft (st : Machine) (h : Inv st) : Inv (doLeft st) := by
  rw [← deselect_inv_iff st] at h
  obtain ⟨h1, h2, h3, h4⟩ := h
  simp only [doLeft]
  split
  · refine ⟨?_, ?_, ?_, ?_⟩ <;> dsimp <;> omega
  · exact ⟨h1, h2, h3, h4⟩

theorem inv_doRight (st : Machine) (h : Inv st) : Inv (doRight st) := by
  rw [← deselect_inv_iff st] at h
  obtain ⟨h1, h2, h3, h4⟩ := h
  simp only [doRight]
  split
  · refine ⟨?_, ?_, ?_, ?_⟩ <;> dsimp <;> omega
  · exact ⟨h1, h2, h3, h4⟩

theorem inv_doDefault (st : Machine) (c : Nat) (h : Inv st) : Inv (doDefault st c) := by
  simp only [doDefault]
  split
  · rw [← deselect_inv_iff st] at h
    obtain ⟨h1, h2, h3, h4⟩ := h
    by_cases hc13 : c = 13
    · rw [if_pos hc13]
      have hcnd : (10 : Nat) = 10 ∨ (deselect st).e = (deselect st).r + INPUT_BUF :=
        Or.inl rfl
      rw [if_pos hcnd]
      refine ⟨?_, ?_, ?_, Or.inr ?_⟩ <;> dsimp <;> omega
    · rw [if_neg hc13]
      split
      · refine ⟨?_, ?_, ?_, Or.inr ?_⟩ <;> dsimp <;> omega
      · exact inv_insertChar _ _ ⟨h1, h2, h3, h4⟩
  · exact h

theorem inv_consoleintrKey (st : Machine) (c : Nat) (h : Inv st) : Inv (consoleintrKey st c) := by
  rw [consoleintrKey]
  by_cases hc0 : c = 19
  · rw [if_pos hc0]; exact inv_doSelect st h
  · rw [if_neg hc0]
    by_cases hc1 : c = 3
    · rw [if_pos hc1]; exact inv_doCopy st h
    · rw [if_neg hc1]
      by_cases hc2 : c = 22
      · rw [if_pos hc2]; exact inv_doPaste st h
      · rw [if_neg hc2]
        by_cases hc3 : c = 1
        · rw [if_pos hc3]; exact inv_doWordBack st h
        · rw [if_neg hc3]
          by_cases hc4 : c = 4
          · rw [if_pos hc4]; exact inv_doFwdOrEof st h
          · rw [if_neg hc4]
            by_cases hc5 : c = 16
            · rw [if_pos hc5]; exact inv_deselect st h
            · rw [if_neg hc5]
              by_cases hc6 : c = 21
              · rw [if_pos hc6]; exact inv_doKill st h
              · rw [if_neg hc6]
                by_cases hc7 : c = 8 ∨ c = 127
                · rw [if_pos hc7]; exact inv_doBackspace st h
                · rw [if_neg hc7]
                  by_cases hc8 : c = 26
                  · rw [if_pos hc8]; exact inv_doUndo st h
                  · rw [if_neg hc8]
                    by_cases hc9 : c = KEY_LF
                    · rw [if_pos hc9]; exact inv_doLeft st h
                    · rw [if_neg hc9]
                      by_cases hc10 : c = KEY_RT
                      · rw [if_pos hc10]; exact inv_doRight st h
                      · rw [if_neg hc10]
                        exact inv_doDefault st c h

theorem inv_consoleintr (ks : List Nat) : ∀ (st : Machine), Inv st → Inv (consoleintr st ks) := by
  induction ks with
  | nil => intro st h; simpa [consoleintr] using h
  | cons k ks ih =>
    intro st h
    have hstep : consoleintr st (k :: ks) = consoleintr (consoleintrKey st k) ks := rfl
    rw [hstep]
    exact ih _ (inv_consoleintrKey st k h)

theorem inv_initState : Inv initState :=
  ⟨Nat.le_refl 0, Nat.le_refl 0, Nat.le_refl 0, Or.inl (by simp [initState])⟩

theorem inv_runKeys (ks : List Nat) : Inv (runKeys ks) :=
  inv_consoleintr ks initState inv_initState

/- Generic getD facts used to track buffer and undo stack contents. -/

theorem getD_set_self {α : Type} (l : List α) (i : Nat) (v d : α) (h : i < l.length) :
    (l.set i v).getD i d = v := by
  rw [List.getD_eq_getElem?_getD, List.getElem?_set_self h]
  rfl

theorem getD_set_other {α : Type} (l : List α) (i j : Nat) (v d : α) (h : i ≠ j) :
    (l.set i v).getD j d = l.getD j d := by
  rw [List.getD_eq_getElem?_getD, List.getElem?_set_ne h, ← List.getD_eq_getElem?_getD]

theorem getD_append_left {α : Type} (l1 l2 : List α) (i : Nat) (d : α) (h : i < l1.length) :
    (l1 ++ l2).getD i d = l1.getD i d := by
  rw [List.getD_eq_getElem?_getD, List.getElem?_append_left h, ← List.getD_eq_getElem?_getD]

theorem getD_concat_self {α : Type} (l : List α) (b d : α) :
    (l ++ [b]).getD l.length d = b := by
  rw [List.getD_eq_getElem?_getD, List.getElem?_concat_length]
  rfl

theorem shiftRightGo_zero (lo : Nat) (buf : List Nat) : shiftRightGo lo buf 0 = buf := rfl

theorem shiftLeftGo_zero (len i : Nat) (buf : List Nat) : shiftLeftGo len i buf 0 = buf := rfl

theorem deselect_eq_self (st : Machine) (h : st.sel_start = -1) : deselect st = st := by
  unfold deselect
  rw [if_neg]
  simp [h]

/- A byte with none of the dispatched key codes reaches the default branch
   of consoleintr; such bytes are the plain insertions of the spec. -/

def plainByte (b : Nat) : Prop :=
  b ≠ 0 ∧ b ≠ 10 ∧ b ≠ 13 ∧ b ≠ 19 ∧ b ≠ 3 ∧ b ≠ 22 ∧ b ≠ 1 ∧ b ≠ 4 ∧ b ≠ 16 ∧
  b ≠ 21 ∧ b ≠ 8 ∧ b ≠ 127 ∧ b ≠ 26 ∧ b ≠ KEY_LF ∧ b ≠ KEY_RT ∧ b < 256

instance (b : Nat) : Decidable (plainByte b) := by
  unfold plainByte
  infer_instance

theorem consoleintrKey_plain (st : Machine) (b : Nat) (hb : plainByte b) :
    consoleintrKey st b = doDefault st b := by
  obtain ⟨h0, h10, h13, h19, h3, h22, h1, h4, h16, h21, h8, h127, h26, hLF, hRT, h256⟩ := hb
  rw [consoleintrKey, if_neg h19, if_neg h3, if_neg h22, if_neg h1, if_neg h4, if_neg h16,
    if_neg h21, if_neg (by simp [h8, h127]), if_neg h26, if_neg hLF, if_neg hRT]

/-- Shape of the machine after a sequence of plain insertions typed from the
    fresh state: every index field is the number of typed bytes, those bytes
    sit at positions 0.. in the ring and the undo log holds one INSERT entry
    per byte at its position. -/
def InsState (L : List Nat) (st : Machine) : Prop :=
  st.r = 0 ∧ st.w = 0 ∧ st.e = L.length ∧ st.c = L.length ∧
  st.selecting = false ∧ st.sel_start = -1 ∧ st.sel_end = -1 ∧
  st.buf.length = INPUT_BUF ∧ st.undo_buf.length = UNDO_BUF ∧
  st.undo_n = L.length ∧
  (∀ i, i < L.length → bufGet st.buf i = L.getD i 0) ∧
  (∀ i, i < L.length → st.undo_buf.getD i ⟨OpType.insert, 0, 0⟩ =
    ⟨OpType.insert, L.getD i 0, i⟩)

theorem insState_init : InsState [] initState := by
  refine ⟨rfl, rfl, rfl, rfl, rfl, rfl, rfl, by simp [initState], by simp [initState],
    rfl, ?_, ?_⟩ <;> intro i hi <;> simp at hi

theorem insState_insert (L : List Nat) (b : Nat) (st : Machine)
    (hI : InsState L st) (hlen : L.length < 128) (hb : plainByte b) :
    InsState (L ++ [b]) (consoleintrKey st b) := by
  obtain ⟨hr, hw, he, hc, hsel, hss, hse, hbl, hul, hun, hbg, hug⟩ := hI
  have hIB : INPUT_BUF = 128 := rfl
  have hUB : UNDO_BUF = 128 := rfl
  rw [consoleintrKey_plain st b hb]
  simp only [doDefault]
  rw [if_pos hb.1, deselect_eq_self st hss, if_neg hb.2.2.1,
    if_neg (by rintro (hx | hx); exact hb.2.1 hx; omega)]
  simp only [insertChar]
  rw [if_pos (by omega), if_pos (by omega)]
  simp only [pushUndo]
  rw [show st.e - st.c = 0 by omega, shiftRightGo_zero,
    Nat.mod_eq_of_lt hb.2.2.2.2.2.2.2.2.2.2.2.2.2.2.2]
  refine ⟨hr, hw, by simp [he], by simp [hc], hsel, hss, hse, ?_, ?_, ?_, ?_, ?_⟩
  · simpa [length_bufSet] using hbl
  · simpa using hul
  · simp [hun]
  · intro i hi
    simp only [List.length_append, List.length_singleton] at hi
    dsimp only
    rw [hc]
    rcases (by omega : i < L.length ∨ i = L.length) with hcase | hcase
    · rw [bufGet_bufSet_other st.buf L.length i b (by simp only [INPUT_BUF]; omega),
        hbg i hcase, getD_append_left L [b] i 0 hcase]
    · subst hcase
      rw [bufGet_bufSet_self st.buf L.length b hbl, getD_concat_self]
  · intro i hi
    simp only [List.length_append, List.length_singleton] at hi
    dsimp only
    rw [hun]
    rcases (by omega : i < L.length ∨ i = L.length) with hcase | hcase
    · rw [getD_set_other st.undo_buf L.length i _ _ (by omega), hug i hcase,
        getD_append_left L [b] i 0 hcase]
    · subst hcase
      rw [getD_set_self st.undo_buf L.length _ _ (by omega), getD_concat_self, hc]

theorem consoleintrKey_cz (st : Machine) : consoleintrKey st 26 = doUndo st := rfl

theorem insState_undo (L : List Nat) (b : Nat) (st : Machine)
    (hI : InsState (L ++ [b]) st) (hlen : L.length < 128) :
    InsState L (consoleintrKey st 26) := by
  obtain ⟨hr, hw, he, hc, hsel, hss, hse, hbl, hul, hun, hbg, hug⟩ := hI
  simp only [List.length_append, List.length_singleton] at he hc hun hbg hug
  rw [consoleintrKey_cz]
  simp only [doUndo]
  rw [deselect_eq_self st hss, if_pos (by omega)]
  rw [hun]
  simp only [Nat.add_sub_cancel]
  have hlast : st.undo_buf.getD L.length ⟨OpType.insert, 0, 0⟩ =
      ⟨OpType.insert, (L ++ [b]).getD L.length 0, L.length⟩ :=
    hug L.length (by omega)
  rw [hlast]
  dsimp only
  rw [if_neg (by omega)]
  rw [show st.e - (L.length + 1) = 0 by omega, shiftLeftGo_zero]
  refine ⟨hr, hw, by simp [he], rfl, hsel, hss, hse, by simpa using hbl,
    by simpa using hul, rfl, ?_, ?_⟩
  · intro i hi
    dsimp only
    rw [hbg i (by omega), getD_append_left L [b] i 0 hi]
  · intro i hi
    dsimp only
    rw [hug i (by omega), getD_append_left L [b] i 0 hi]

theorem insState_run (L : List Nat) (hp : ∀ b ∈ L, plainByte b) (hlen : L.length ≤ 128) :
    InsState L (consoleintr initState L) := by
  induction L using List.reverseRecOn with
  | nil => exact insState_init
  | append_singleton L b ih =>
    rw [consoleintr, List.foldl_append]
    have hlt : L.length < 128 := by
      have := hlen
      simp only [List.length_append, List.length_singleton] at this
      omega
    exact insState_insert L b _
      (by rw [← consoleintr] at *; exact ih (fun x hx => hp x (by simp [hx])) (by omega))
      hlt (hp b (by simp))

theorem insState_undo_run (L : List Nat) : ∀ (st : Machine), InsState L st →
    L.length ≤ 128 → InsState [] (consoleintr st (List.replicate L.length 26)) := by
  induction L using List.reverseRecOn with
  | nil => intro st h _; simpa [consoleintr] using h
  | append_singleton L b ih =>
    intro st h hlen
    simp only [List.length_append, List.length_singleton] at hlen ⊢
    rw [List.replicate_succ]
    have hstep : consoleintr st (26 :: List.replicate L.length 26) =
        consoleintr (consoleintrKey st 26) (List.replicate L.length 26) := rfl
    rw [hstep]
    exact ih _ (insState_undo L b st h (by omega)) (by omega)

/- The commit taken by the default branch when the ring is full, and the
   fact that C-Z does nothing once the undo log is empty. -/

def commitState (st : Machine) : Machine :=
  { st with buf := bufSet st.buf st.e 10, e := st.e + 1,
            w := st.e + 1, c := st.e + 1, undo_n := 0 }

theorem commit_full (st : Machine) (b : Nat) (hb : plainByte b) (hsel : st.sel_start = -1)
    (hfull : st.e = st.r + INPUT_BUF) : consoleintrKey st b = commitState st := by
  rw [consoleintrKey_plain st b hb]
  simp only [doDefault]
  rw [if_pos hb.1, deselect_eq_self st hsel, if_neg hb.2.2.1, if_pos (Or.inr hfull)]
  rfl

theorem consoleintrKey_cz_noop (st : Machine) (hsel : st.sel_start = -1)
    (hn : st.undo_n = 0) : consoleintrKey st 26 = st := by
  rw [consoleintrKey_cz]
  simp only [doUndo]
  rw [deselect_eq_self st hsel, if_neg (by omega)]

theorem consoleintr_cz_noop (k : Nat) (st : Machine) (hsel : st.sel_start = -1)
    (hn : st.undo_n = 0) : consoleintr st (List.replicate k 26) = st := by
  induction k with
  | zero => rfl
  | succ k ih =>
    rw [List.replicate_succ]
    show consoleintr (consoleintrKey st 26) (List.replicate k 26) = st
    rw [consoleintrKey_cz_noop st hsel hn]
    exact ih

theorem full_commit_fields (st : Machine) (b : Nat) (hb : plainByte b)
    (hI : InsState (List.replicate 128 97) st) :
    (consoleintrKey st b).e = 129 ∧ (consoleintrKey st b).r = 0 ∧
    (consoleintrKey st b).w = 129 ∧ (consoleintrKey st b).c = 129 ∧
    (consoleintrKey st b).undo_n = 0 ∧ (consoleintrKey st b).sel_start = -1 := by
  obtain ⟨hr, hw, he, hc, hsel, hss, hse, _⟩ := hI
  simp only [List.length_replicate] at he hc
  have hIB : INPUT_BUF = 128 := rfl
  rw [commit_full st b hb hss (by omega)]
  refine ⟨?_, ?_, ?_, ?_, ?_, ?_⟩ <;> simp [commitState, hss] <;> omega

theorem plain_replicate_97 (n : Nat) : ∀ b ∈ List.replicate n 97, plainByte b := by
  intro b hbm
  rw [List.eq_of_mem_replicate hbm]
  decide

/-- C9: for every sequence of key codes dispatched by consoleintr from the
    initial console state, the caret stays inside the editable region,
    w ≤ c ≤ e, after every event. -/
theorem claim_C9_theorem (ks : List Nat) :
    (runKeys ks).w ≤ (runKeys ks).c ∧ (runKeys ks).c ≤ (runKeys ks).e :=
  ⟨(inv_runKeys ks).2.1, (inv_runKeys ks).2.2.1⟩

/-- C1 (amended): after every consoleintr event the ring indices satisfy
    r ≤ w ≤ e, and the bound e − r ≤ B holds or the whole content is
    committed (w = e).  The plain bound e − r ≤ B of the original claim is
    false: the commit taken when the ring is full pushes e to r + B + 1,
    see the counterexample theorem. -/
theorem claim_C1_theorem (ks : List Nat) :
    (runKeys ks).r ≤ (runKeys ks).w ∧ (runKeys ks).w ≤ (runKeys ks).e ∧
    ((runKeys ks).e ≤ (runKeys ks).r + INPUT_BUF ∨ (runKeys ks).w = (runKeys ks).e) := by
  have h := inv_runKeys ks
  exact ⟨h.1, Nat.le_trans h.2.1 h.2.2.1, h.2.2.2⟩

/-- C1 counterexample: typing 128 plain bytes fills the ring, and the very
    next byte takes the full-ring commit which appends a newline at e, so
    e − r reaches 129 > B = 128, refuting the claimed invariant e − r ≤ B. -/
theorem claim_C1_counterexample :
    (runKeys (List.replicate 128 97 ++ [98])).e = 129 ∧
    (runKeys (List.replicate 128 97 ++ [98])).r = 0 ∧
    ¬ ((runKeys (List.replicate 128 97 ++ [98])).e ≤
        (runKeys (List.replicate 128 97 ++ [98])).r + INPUT_BUF) := by
  have hI := insState_run (List.replicate 128 97) (plain_replicate_97 128) (by simp)
  have hrun : runKeys (List.replicate 128 97 ++ [98]) =
      consoleintrKey (consoleintr initState (List.replicate 128 97)) 98 := by
    rw [runKeys, consoleintr, List.foldl_append, List.foldl_cons, List.foldl_nil,
      consoleintr]
  rw [hrun]
  obtain ⟨he, hr, _, _, _, _⟩ := full_commit_fields _ 98 (by decide) hI
  refine ⟨he, hr, ?_⟩
  rw [he, hr]
  decide

/-- C8 (amended): for every sequence of at most 128 plain single-byte
    insertions typed from the fresh state, pressing C-Z once per insertion
    restores the editable region and the caret: w, e and c all return to
    their initial value 0 (so the line is empty again, as before typing).
    For more than 128 insertions the claim fails, see the counterexample:
    the 129th byte commits the line and clears the log. -/
theorem claim_C8_theorem (L : List Nat) (hp : ∀ b ∈ L, plainByte b)
    (hlen : L.length ≤ 128) :
    (runKeys (L ++ List.replicate L.length 26)).w = 0 ∧
    (runKeys (L ++ List.replicate L.length 26)).e = 0 ∧
    (runKeys (L ++ List.replicate L.length 26)).c = 0 := by
  have h1 := insState_run L hp hlen
  have h2 := insState_undo_run L _ h1 hlen
  have hrun : runKeys (L ++ List.replicate L.length 26) =
      consoleintr (consoleintr initState L) (List.replicate L.length 26) := by
    rw [runKeys, consoleintr, List.foldl_append, consoleintr, consoleintr]
  rw [hrun]
  exact ⟨h2.2.1, h2.2.2.1, h2.2.2.2.1⟩

/-- C8 witness: two insertions followed by two C-Z leave the region and the
    caret at their initial values. -/
theorem claim_C8_witness :
    (runKeys ([97, 98] ++ List.replicate 2 26)).w = 0 ∧
    (runKeys ([97, 98] ++ List.replicate 2 26)).e = 0 ∧
    (runKeys ([97, 98] ++ List.replicate 2 26)).c = 0 :=
  claim_C8_theorem [97, 98] (by decide) (by decide)

/-- C8 counterexample: after 129 insertions and 129 C-Z the caret and both
    region ends sit at 129, not at their values before the insertions (the
    fresh state has w = e = c = 0): the 129th insertion hits the full ring,
    commits the line and clears the undo log, so no C-Z can restore it. -/
theorem claim_C8_counterexample :
    (runKeys (List.replicate 129 97 ++ List.replicate 129 26)).w = 129 ∧
    (runKeys (List.replicate 129 97 ++ List.replicate 129 26)).e = 129 ∧
    (runKeys (List.replicate 129 97 ++ List.replicate 129 26)).c = 129 ∧
    initState.w = 0 ∧ initState.e = 0 ∧ initState.c = 0 := by
  have hI := insState_run (List.replicate 128 97) (plain_replicate_97 128) (by simp)
  have h129 : List.replicate 129 97 = List.replicate 128 97 ++ [97] :=
    List.replicate_succ' 128 97
  have hsplit : runKeys (List.replicate 129 97 ++ List.replicate 129 26) =
      consoleintr (consoleintrKey (consoleintr initState (List.replicate 128 97)) 97)
        (List.replicate 129 26) := by
    rw [runKeys, h129, consoleintr, List.foldl_append, List.foldl_append,
      List.foldl_cons, List.foldl_nil, consoleintr, consoleintr]
  obtain ⟨he, hr, hw, hc, hn, hss⟩ := full_commit_fields _ 97 (by decide) hI
  rw [hsplit, consoleintr_cz_noop 129 _ hss hn]
  exact ⟨hw, he, hc, rfl, rfl, rfl⟩

/- Concrete read scenarios: C-D EOF handling of consoleread, the a b C-D
   scenario and the select, copy, kill, paste scenario. -/

/-- The keystrokes of the mid-line EOF scenario: a, b, C-D. -/
def c5keys : List Nat := [97, 98, 4]

/-- The nearby scenario that does commit: a, b, newline, then C-D on the
    now empty line. -/
def c5keysAmended : List Nat := [97, 98, 10, 4]

/-- C5 counterexample: after a, b, C-D nothing is committed, because C-D on
    a non empty line is forward word motion, not an EOF commit: r = w still
    holds, so the first read of the scenario would sleep forever instead of
    returning 2; the claim is false on this code. -/
theorem claim_C5_counterexample :
    (runKeys c5keys).r = (runKeys c5keys).w ∧ (runKeys c5keys).e = 2 ∧
    consoleread (runKeys c5keys) 16 = none := by decide

/-- C5 (amended): with the line committed by a newline first (keys a, b,
    newline, C-D), the first read of 16 returns the three bytes a b newline
    and leaves the EOF byte 0x04 unconsumed at the read position; a second
    read returns 0 bytes and consumes the EOF. -/
theorem claim_C5_theorem :
    readBytes (runKeys c5keysAmended) 16 = some [97, 98, 10] ∧
    readRet (runKeys c5keysAmended) 16 = some 3 ∧
    (readNext (runKeys c5keysAmended) 16).map (fun m => m.r) = some 3 ∧
    (readNext (runKeys c5keysAmended) 16).map (fun m => bufGet m.buf m.r) = some 4 ∧
    (readNext (runKeys c5keysAmended) 16).map (fun m => readRet m 16) = some (some 0) ∧
    (readNext (runKeys c5keysAmended) 16).map
      (fun m => (readNext m 16).map (fun m2 => m2.r)) = some (some 4) := by decide

/-- The keystrokes of the select, copy, kill, paste scenario: h e l l o,
    C-S, three left arrows, C-S, C-C, C-U, C-V, newline. -/
def c6keys : List Nat := [104, 101, 108, 108, 111, 19, 228, 228, 228, 19, 3, 21, 22, 10]

/-- The prefix of c6keys up to the second C-S, where the selection is
    completed. -/
def c6sel : List Nat := [104, 101, 108, 108, 111, 19, 228, 228, 228, 19]

/-- C6 counterexample: the two C-S presses select positions [2, 5), whose
    bytes are l l o, not e l l: the first C-S records the caret after the
    o (position 5) and three left arrows put the caret at 2.  The read of
    the committed line accordingly returns l l o newline, not e l l
    newline. -/
theorem claim_C6_counterexample :
    (runKeys c6sel).sel_start = 2 ∧ (runKeys c6sel).sel_end = 5 ∧
    (List.range 3).map (fun i => bufGet (runKeys c6sel).buf (2 + i)) = [108, 108, 111] ∧
    [108, 108, 111] ≠ [101, 108, 108] ∧
    readBytes (runKeys c6keys) 16 = some [108, 108, 111, 10] ∧
    some [108, 108, 111, 10] ≠ some [101, 108, 108, 10] := by decide

/-- C6 (amended): in the scenario the selection is the byte range [2, 5)
    holding l l o; copy, kill, paste and newline then commit that text and
    the read returns the four bytes l l o newline. -/
theorem claim_C6_theorem :
    (runKeys c6sel).sel_start = 2 ∧ (runKeys c6sel).sel_end = 5 ∧
    readBytes (runKeys c6keys) 16 = some [108, 108, 111, 10] ∧
    readRet (runKeys c6keys) 16 = some 4 := by decide

/- The EOF discipline of consoleread: a C-D byte taken first consumes the
   EOF and yields a 0 byte read; a C-D met after some bytes were copied is
   pushed back for the next call. -/

theorem readLoopGo_eof (target : Nat) :
    ∀ (xs : List Nat) (st : Machine) (n : Nat) (acc : List Nat),
      acc.length + n = target →
      xs.length < n →
      (∀ i, i < xs.length → bufGet st.buf (st.r + i) = xs.getD i 0) →
      (∀ i, i < xs.length → xs.getD i 0 ≠ 4 ∧ xs.getD i 0 ≠ 10) →
      st.r + xs.length < st.w →
      bufGet st.buf (st.r + xs.length) = 4 →
      readLoopGo target n st acc =
        some (acc ++ xs,
          { st with r := if acc.length + xs.length = 0 then st.r + xs.length + 1
                         else st.r + xs.length }) := by
  intro xs
  induction xs with
  | nil =>
    intro st n acc htar hn hdata hno hin heof
    simp only [List.length_nil, Nat.add_zero] at hin heof htar hn ⊢
    cases n with
    | zero => omega
    | succ m =>
      simp only [readLoopGo]
      rw [if_neg (by omega), heof, if_pos rfl]
      simp only [List.append_nil]
      by_cases hacc : acc.length = 0
      · rw [if_neg (by omega), if_pos hacc]
      · rw [if_pos (by omega), if_neg hacc]
        rw [show st.r + 1 - 1 = st.r from by omega]
  | cons x xs ih =>
    intro st n acc htar hn hdata hno hin heof
    simp only [List.length_cons] at hn hin heof htar
    cases n with
    | zero => omega
    | succ m =>
      have h0 : bufGet st.buf st.r = x := by
        have := hdata 0 (by simp)
        simpa using this
      have hx4 : x ≠ 4 ∧ x ≠ 10 := by
        have := hno 0 (by simp)
        simpa using this
      simp only [readLoopGo]
      rw [if_neg (by omega), h0, if_neg hx4.1, if_neg hx4.2]
      have htar2 : (acc ++ [x]).length + m = target := by
        simp only [List.length_append, List.length_singleton]
        omega
      have hdata2 : ∀ i, i < xs.length →
          bufGet ({ st with r := st.r + 1 } : Machine).buf
            (({ st with r := st.r + 1 } : Machine).r + i) = xs.getD i 0 := by
        intro i hi
        dsimp only
        have := hdata (i + 1) (by simp; omega)
        rw [show st.r + (i + 1) = st.r + 1 + i from by omega] at this
        simpa using this
      have hno2 : ∀ i, i < xs.length → xs.getD i 0 ≠ 4 ∧ xs.getD i 0 ≠ 10 := by
        intro i hi
        have := hno (i + 1) (by simp; omega)
        simpa using this
      have hin2 : ({ st with r := st.r + 1 } : Machine).r + xs.length <
          ({ st with r := st.r + 1 } : Machine).w := by
        dsimp only
        omega
      have heof2 : bufGet ({ st with r := st.r + 1 } : Machine).buf
          (({ st with r := st.r + 1 } : Machine).r + xs.length) = 4 := by
        dsimp only
        rw [show st.r + 1 + xs.length = st.r + (xs.length + 1) from by omega]
        exact heof
      rw [ih { st with r := st.r + 1 } m (acc ++ [x]) htar2 (by omega) hdata2 hno2
        hin2 heof2]
      dsimp only
      rw [if_neg (by simp), if_neg (by simp)]
      rw [show st.r + 1 + xs.length = st.r + (xs.length + 1) from by omega]
      simp [List.append_assoc]

/-- C7: behaviour of consoleread at a C-D byte.  If the committed region
    from r holds the bytes xs (none of them C-D or newline) followed by a
    C-D, and the requested count exceeds the length of xs, the call copies
    exactly xs and returns their number; when xs is empty (the C-D is the
    first byte taken) the EOF byte is consumed (r advances past it) and the
    call returns 0, otherwise r stops on the C-D so the EOF is retained for
    the next call. -/
theorem claim_C7_theorem (st : Machine) (n : Nat) (xs : List Nat)
    (hn : xs.length < n)
    (hdata : ∀ i, i < xs.length → bufGet st.buf (st.r + i) = xs.getD i 0)
    (hno : ∀ i, i < xs.length → xs.getD i 0 ≠ 4 ∧ xs.getD i 0 ≠ 10)
    (hin : st.r + xs.length < st.w)
    (heof : bufGet st.buf (st.r + xs.length) = 4) :
    consoleread st n =
      some (xs, { st with r := if xs.length = 0 then st.r + xs.length + 1
                               else st.r + xs.length }, xs.length) := by
  have h := readLoopGo_eof n xs st n [] (by simp) hn hdata hno hin heof
  simp only [consoleread, h, List.nil_append, List.length_nil, Nat.zero_add]

/-- A concrete committed state for the C7 witness: the bytes a, b, C-D are
    committed (w = 3) and nothing has been read yet. -/
def c7state : Machine :=
  { initState with buf := bufSet (bufSet (bufSet initState.buf 0 97) 1 98) 2 4,
                   w := 3, e := 3, c := 3 }

/-- C7 witness: on the concrete state with committed bytes a, b, C-D, a
    read of 16 returns the two bytes and leaves r on the EOF byte, and a
    read of 16 from the resulting state returns 0 bytes and consumes it. -/
theorem claim_C7_witness :
    consoleread c7state 16 = some ([97, 98], { c7state with r := 2 }, 2) ∧
    consoleread { c7state with r := 2 } 16 =
      some ([], { c7state with r := 3 }, 0) := by
  constructor
  · exact claim_C7_theorem c7state 16 [97, 98] (by decide) (by decide) (by decide)
      (by decide) (by decide)
  · exact claim_C7_theorem { c7state with r := 2 } 16 [] (by decide) (by decide)
      (by decide) (by decide) (by decide)

/- Lengths are preserved by the copy loops. -/

theorem shiftRightGo_length (lo : Nat) : ∀ (k : Nat) (buf : List Nat),
    (shiftRightGo lo buf k).length = buf.length := by
  intro k
  induction k with
  | zero => intro buf; rfl
  | succ k ih =>
    intro buf
    unfold shiftRightGo
    rw [ih, length_bufSet]

theorem shiftLeftGo_length (len : Nat) : ∀ (k i : Nat) (buf : List Nat),
    (shiftLeftGo len i buf k).length = buf.length := by
  intro k
  induction k with
  | zero => intro i buf; rfl
  | succ k ih =>
    intro i buf
    unfold shiftLeftGo
    rw [ih, length_bufSet]

/-- C2 counterexample: take the build time command list to contain exactly
    find_sum, so that the one byte line f is a prefix of exactly one
    command.  Pressing Tab does not complete it: the editable region
    afterwards holds f followed by a literal tab byte 0x09, which differs
    from the bytes of find_sum, and no completion code exists anywhere in
    console.c. -/
theorem claim_C2_counterexample :
    regionContent (runKeys [102, 9]) = [102, 9] ∧
    (runKeys [102, 9]).c = 2 ∧ (runKeys [102, 9]).e = 2 ∧
    [102, 9] ≠ [102, 105, 110, 100, 95, 115, 117, 109] := by decide

/-- C2 (amended): Tab is not a completion key in this console: byte 0x09
    reaches the default branch of consoleintr and is inserted at the caret
    like any other plain byte whenever the ring has room, advancing c and e
    by one and leaving w and r unchanged. -/
theorem claim_C2_theorem (st : Machine) (hroom : st.e < st.r + INPUT_BUF)
    (hbl : st.buf.length = INPUT_BUF) :
    (consoleintrKey st 9).e = st.e + 1 ∧ (consoleintrKey st 9).c = st.c + 1 ∧
    (consoleintrKey st 9).w = st.w ∧ (consoleintrKey st 9).r = st.r ∧
    bufGet (consoleintrKey st 9).buf st.c = 9 := by
  rw [consoleintrKey_plain st 9 (by decide)]
  simp only [doDefault]
  rw [if_pos (by decide : (9 : Nat) ≠ 0), if_neg (by decide : ¬ (9 : Nat) = 13),
    if_neg (show ¬((9 : Nat) = 10 ∨ (deselect st).e = (deselect st).r + INPUT_BUF) from by
      rw [deselect_e, deselect_r]
      rintro (hx | hx)
      · exact absurd hx (by decide)
      · omega)]
  simp only [insertChar]
  rw [if_pos (by rw [deselect_e, deselect_r]; omega)]
  split
  · refine ⟨?_, ?_, ?_, ?_, ?_⟩
    · dsimp [pushUndo]; rw [deselect_e]
    · dsimp [pushUndo]; rw [deselect_c]
    · dsimp [pushUndo]; rw [deselect_w]
    · dsimp [pushUndo]; rw [deselect_r]
    · dsimp [pushUndo]
      rw [deselect_c, bufGet_bufSet_self _ _ _
        (by rw [shiftRightGo_length, deselect_buf]; exact hbl)]
  · refine ⟨?_, ?_, ?_, ?_, ?_⟩
    · dsimp; rw [deselect_e]
    · dsimp; rw [deselect_c]
    · dsimp; rw [deselect_w]
    · dsimp; rw [deselect_r]
    · dsimp
      rw [deselect_c, bufGet_bufSet_self _ _ _
        (by rw [shiftRightGo_length, deselect_buf]; exact hbl)]

set_option maxRecDepth 8192 in
/-- C2 witness: Tab on the fresh state stores a literal 0x09 at position 0
    and moves the caret and the region end to 1. -/
theorem claim_C2_witness :
    (consoleintrKey initState 9).e = initState.e + 1 ∧
    (consoleintrKey initState 9).c = initState.c + 1 ∧
    (consoleintrKey initState 9).w = initState.w ∧
    (consoleintrKey initState 9).r = initState.r ∧
    bufGet (consoleintrKey initState 9).buf initState.c = 9 :=
  claim_C2_theorem initState (by decide) (by decide)

/- What the copy loop of C-C writes into the clipboard. -/

theorem copyGo_getD_lt (src : List Nat) (sN : Nat) :
    ∀ (k i : Nat) (clip : List Nat) (j : Nat), j < i →
      (copyGo src sN clip i k).getD j 0 = clip.getD j 0 := by
  intro k
  induction k with
  | zero => intro i clip j hj; rfl
  | succ k ih =>
    intro i clip j hj
    unfold copyGo
    rw [ih (i + 1) _ j (by omega), getD_set_other _ _ _ _ _ (by omega)]

theorem copyGo_getD (src : List Nat) (sN : Nat) :
    ∀ (k i : Nat) (clip : List Nat), i + k ≤ clip.length →
      ∀ j, i ≤ j → j < i + k →
        (copyGo src sN clip i k).getD j 0 = bufGet src (sN + j) := by
  intro k
  induction k with
  | zero => intro i clip hlen j hij hjk; omega
  | succ k ih =>
    intro i clip hlen j hij hjk
    unfold copyGo
    rcases Nat.eq_or_lt_of_le hij with hcase | hcase
    · subst hcase
      rw [copyGo_getD_lt src sN k (i + 1) _ i (by omega),
        getD_set_self _ _ _ _ (by omega)]
    · rw [ih (i + 1) _ (by rw [List.length_set]; omega) j (by omega) (by omega)]

theorem emod_pow32_eq (a : Int) (h0 : 0 ≤ a) (h : a < 2 ^ 32) : a.emod (2 ^ 32) = a :=
  Int.emod_eq_of_lt h0 h

/-- C10: pressing C-C with a completed (normalized, committed into view)
    selection copies the clamped selected bytes to the clipboard and
    changes nothing else: the line buffer, all four ring indices, the
    selection endpoints, the selecting latch and the undo log keep their
    values, so the selection is still active afterwards (and a following
    C-V therefore runs delete_selection before pasting, by the guard in
    its branch).  The clipboard length is the clamped selection length
    truncated at CLIPBOARD_BUF. -/
theorem claim_C10_theorem (st : Machine)
    (h1 : st.sel_start ≠ -1) (h2 : st.sel_end ≠ -1)
    (hord : st.sel_start ≤ st.sel_end)
    (hwse : (st.w : Int) ≤ st.sel_end) (hsee : st.sel_end ≤ (st.e : Int))
    (hcl : st.clip_buf.length = CLIPBOARD_BUF) :
    (consoleintrKey st 3).buf = st.buf ∧ (consoleintrKey st 3).r = st.r ∧
    (consoleintrKey st 3).w = st.w ∧ (consoleintrKey st 3).e = st.e ∧
    (consoleintrKey st 3).c = st.c ∧
    (consoleintrKey st 3).sel_start = st.sel_start ∧
    (consoleintrKey st 3).sel_end = st.sel_end ∧
    (consoleintrKey st 3).selecting = st.selecting ∧
    (consoleintrKey st 3).undo_buf = st.undo_buf ∧
    (consoleintrKey st 3).undo_n = st.undo_n ∧
    (consoleintrKey st 3).sel_start ≠ -1 ∧ (consoleintrKey st 3).sel_end ≠ -1 ∧
    (consoleintrKey st 3).clip_n =
      (min (st.sel_end - max st.sel_start (st.w : Int)) (CLIPBOARD_BUF : Int)).toNat ∧
    (∀ i, i < (consoleintrKey st 3).clip_n →
      (consoleintrKey st 3).clip_buf.getD i 0 =
        bufGet st.buf ((max st.sel_start (st.w : Int)).toNat + i)) := by
  have hkey : consoleintrKey st 3 = doCopy st := rfl
  rw [hkey]
  simp only [doCopy]
  rw [if_pos ⟨h1, h2⟩]
  rw [if_neg (show ¬ st.sel_start > st.sel_end from by omega),
    if_neg (show ¬ st.sel_start > st.sel_end from by omega),
    if_neg (show ¬ st.sel_end > (st.e : Int) from by omega)]
  have hCB : (CLIPBOARD_BUF : Int) = 128 := rfl
  by_cases hclamp : st.sel_start < (st.w : Int)
  · rw [if_pos hclamp]
    by_cases htr : st.sel_end - (st.w : Int) > (CLIPBOARD_BUF : Int)
    · rw [if_pos htr]
      refine ⟨rfl, rfl, rfl, rfl, rfl, rfl, rfl, rfl, rfl, rfl, h1, h2, ?_, ?_⟩
      · dsimp only
        rw [emod_pow32_eq _ (by omega) (by omega)]
        omega
      · intro i hi
        dsimp only at hi ⊢
        rw [emod_pow32_eq _ (by omega) (by omega)] at hi
        rw [copyGo_getD st.buf _ _ 0 st.clip_buf (by rw [hcl]; omega) i (by omega)
          (by omega)]
        congr 1
        omega
    · rw [if_neg htr]
      refine ⟨rfl, rfl, rfl, rfl, rfl, rfl, rfl, rfl, rfl, rfl, h1, h2, ?_, ?_⟩
      · dsimp only
        rw [emod_pow32_eq _ (by omega) (by omega)]
        omega
      · intro i hi
        dsimp only at hi ⊢
        rw [emod_pow32_eq _ (by omega) (by omega)] at hi
        rw [copyGo_getD st.buf _ _ 0 st.clip_buf (by rw [hcl]; omega) i (by omega)
          (by omega)]
        congr 1
        omega
  · rw [if_neg hclamp]
    by_cases htr : st.sel_end - st.sel_start > (CLIPBOARD_BUF : Int)
    · rw [if_pos htr]
      refine ⟨rfl, rfl, rfl, rfl, rfl, rfl, rfl, rfl, rfl, rfl, h1, h2, ?_, ?_⟩
      · dsimp only
        rw [emod_pow32_eq _ (by omega) (by omega)]
        omega
      · intro i hi
        dsimp only at hi ⊢
        rw [emod_pow32_eq _ (by omega) (by omega)] at hi
        rw [copyGo_getD st.buf _ _ 0 st.clip_buf (by rw [hcl]; omega) i (by omega)
          (by omega)]
        congr 1
        omega
    · rw [if_neg htr]
      refine ⟨rfl, rfl, rfl, rfl, rfl, rfl, rfl, rfl, rfl, rfl, h1, h2, ?_, ?_⟩
      · dsimp only
        rw [emod_pow32_eq _ (by omega) (by omega)]
        omega
      · intro i hi
        dsimp only at hi ⊢
        rw [emod_pow32_eq _ (by omega) (by omega)] at hi
        rw [copyGo_getD st.buf _ _ 0 st.clip_buf (by rw [hcl]; omega) i (by omega)
          (by omega)]
        congr 1
        omega

set_option maxRecDepth 8192 in
/-- C10 witness: on the state reached by typing a b c, pressing C-S, two
    left arrows and C-S again (selection [1, 3)), a C-C leaves every input
    field unchanged and loads the two selected bytes into the clipboard. -/
theorem claim_C10_witness :
    (consoleintrKey (runKeys [97, 98, 99, 19, 228, 228, 19]) 3).buf =
      (runKeys [97, 98, 99, 19, 228, 228, 19]).buf ∧
    (consoleintrKey (runKeys [97, 98, 99, 19, 228, 228, 19]) 3).r =
      (runKeys [97, 98, 99, 19, 228, 228, 19]).r ∧
    (consoleintrKey (runKeys [97, 98, 99, 19, 228, 228, 19]) 3).w =
      (runKeys [97, 98, 99, 19, 228, 228, 19]).w ∧
    (consoleintrKey (runKeys [97, 98, 99, 19, 228, 228, 19]) 3).e =
      (runKeys [97, 98, 99, 19, 228, 228, 19]).e ∧
    (consoleintrKey (runKeys [97, 98, 99, 19, 228, 228, 19]) 3).c =
      (runKeys [97, 98, 99, 19, 228, 228, 19]).c ∧
    (consoleintrKey (runKeys [97, 98, 99, 19, 228, 228, 19]) 3).sel_start =
      (runKeys [97, 98, 99, 19, 228, 228, 19]).sel_start ∧
    (consoleintrKey (runKeys [97, 98, 99, 19, 228, 228, 19]) 3).sel_end =
      (runKeys [97, 98, 99, 19, 228, 228, 19]).sel_end ∧
    (consoleintrKey (runKeys [97, 98, 99, 19, 228, 228, 19]) 3).selecting =
      (runKeys [97, 98, 99, 19, 228, 228, 19]).selecting ∧
    (consoleintrKey (runKeys [97, 98, 99, 19, 228, 228, 19]) 3).undo_buf =
      (runKeys [97, 98, 99, 19, 228, 228, 19]).undo_buf ∧
    (consoleintrKey (runKeys [97, 98, 99, 19, 228, 228, 19]) 3).undo_n =
      (runKeys [97, 98, 99, 19, 228, 228, 19]).undo_n ∧
    (consoleintrKey (runKeys [97, 98, 99, 19, 228, 228, 19]) 3).sel_start ≠ -1 ∧
    (consoleintrKey (runKeys [97, 98, 99, 19, 228, 228, 19]) 3).sel_end ≠ -1 ∧
    (consoleintrKey (runKeys [97, 98, 99, 19, 228, 228, 19]) 3).clip_n =
      (min ((runKeys [97, 98, 99, 19, 228, 228, 19]).sel_end -
          max (runKeys [97, 98, 99, 19, 228, 228, 19]).sel_start
            ((runKeys [97, 98, 99, 19, 228, 228, 19]).w : Int))
        (CLIPBOARD_BUF : Int)).toNat ∧
    (∀ i, i < (consoleintrKey (runKeys [97, 98, 99, 19, 228, 228, 19]) 3).clip_n →
      (consoleintrKey (runKeys [97, 98, 99, 19, 228, 228, 19]) 3).clip_buf.getD i 0 =
        bufGet (runKeys [97, 98, 99, 19, 228, 228, 19]).buf
          ((max (runKeys [97, 98, 99, 19, 228, 228, 19]).sel_start
            ((runKeys [97, 98, 99, 19, 228, 228, 19]).w : Int)).toNat + i)) :=
  claim_C10_theorem (runKeys [97, 98, 99, 19, 228, 228, 19]) (by decide) (by decide)
    (by decide) (by decide) (by decide) (by decide)

/- What the ascending one slot shift of backspace does to the ring. -/

theorem shiftLeft1_untouched : ∀ (k i : Nat) (buf : List Nat) (j : Nat), 1 ≤ i →
    (∀ s, i - 1 ≤ s → s < i + k - 1 → s % INPUT_BUF ≠ j % INPUT_BUF) →
    bufGet (shiftLeftGo 1 i buf k) j = bufGet buf j := by
  intro k
  induction k with
  | zero => intro i buf j hi hcond; rfl
  | succ k ih =>
    intro i buf j hi hcond
    unfold shiftLeftGo
    rw [ih (i + 1) (bufSet buf (i - 1) (bufGet buf i)) j (by omega)
      (fun s hs1 hs2 => hcond s (by omega) (by omega))]
    exact bufGet_bufSet_other buf (i - 1) j _ (hcond (i - 1) (by omega) (by omega))

theorem shiftLeft1_shift : ∀ (k i : Nat) (buf : List Nat) (j : Nat),
    buf.length = INPUT_BUF → 1 ≤ i → k ≤ INPUT_BUF - 1 →
    i - 1 ≤ j → j < i + k - 1 →
    bufGet (shiftLeftGo 1 i buf k) j = bufGet buf (j + 1) := by
  intro k
  induction k with
  | zero =>
    intro i buf j hbl hi hk hj1 hj2
    exact absurd hj2 (by omega)
  | succ k ih =>
    intro i buf j hbl hi hk hj1 hj2
    have hIB : INPUT_BUF = 128 := rfl
    unfold shiftLeftGo
    rcases Nat.eq_or_lt_of_le hj1 with hcase | hcase
    · subst hcase
      rw [shiftLeft1_untouched k (i + 1) _ (i - 1) (by omega)
        (fun s hs1 hs2 => by simp only [INPUT_BUF]; omega)]
      rw [bufGet_bufSet_self _ _ _ hbl]
      congr 1
      omega
    · rw [ih (i + 1) _ j (by rw [length_bufSet]; exact hbl) (by omega) (by omega)
        (by omega) (by omega)]
      exact bufGet_bufSet_other buf (i - 1) (j + 1) _ (by simp only [INPUT_BUF]; omega)

/-- C3 counterexample: select the three typed bytes a b c (C-S, three left
    arrows, C-S), then press backspace.  The selection is only dismissed:
    the three bytes are still in the region, e is still 3, no DELETE entry
    was appended for them and the caret guard c > w blocked any erase. -/
theorem claim_C3_counterexample :
    (runKeys [97, 98, 99, 19, 228, 228, 228, 19]).sel_start = 0 ∧
    (runKeys [97, 98, 99, 19, 228, 228, 228, 19]).sel_end = 3 ∧
    (runKeys [97, 98, 99, 19, 228, 228, 228, 19]).e = 3 ∧
    (runKeys [97, 98, 99, 19, 228, 228, 228, 19, 8]).sel_start = -1 ∧
    (runKeys [97, 98, 99, 19, 228, 228, 228, 19, 8]).sel_end = -1 ∧
    (runKeys [97, 98, 99, 19, 228, 228, 228, 19, 8]).e = 3 ∧
    regionContent (runKeys [97, 98, 99, 19, 228, 228, 228, 19, 8]) = [97, 98, 99] ∧
    (runKeys [97, 98, 99, 19, 228, 228, 228, 19, 8]).undo_n = 3 := by decide

/-- C3 (amended): backspace never deletes a selection.  With a completed
    selection active and the caret strictly past w, a backspace first
    dismisses the selection, then erases the single byte left of the
    caret: e and c drop by one, bytes before c - 1 stay, bytes from c - 1
    shift left by one, w, r and the undo entries are untouched, and
    undo.n is decremented without any guard (wrapping to 2^32 - 1 when it
    was 0).  No DELETE entry is recorded, so the erase is not undoable. -/
theorem claim_C3_theorem (st : Machine)
    (hbl : st.buf.length = INPUT_BUF)
    (hs1 : st.sel_start ≠ -1) (hs2 : st.sel_end ≠ -1)
    (hwc : st.w < st.c) (hce : st.c ≤ st.e) (hew : st.e ≤ st.w + INPUT_BUF) :
    (consoleintrKey st 8).sel_start = -1 ∧ (consoleintrKey st 8).sel_end = -1 ∧
    (consoleintrKey st 8).selecting = false ∧
    (consoleintrKey st 8).e = st.e - 1 ∧ (consoleintrKey st 8).c = st.c - 1 ∧
    (consoleintrKey st 8).w = st.w ∧ (consoleintrKey st 8).r = st.r ∧
    (consoleintrKey st 8).undo_buf = st.undo_buf ∧
    (consoleintrKey st 8).undo_n =
      (if st.undo_n = 0 then 2 ^ 32 - 1 else st.undo_n - 1) ∧
    (∀ j, st.w ≤ j → j < st.c - 1 →
      bufGet (consoleintrKey st 8).buf j = bufGet st.buf j) ∧
    (∀ j, st.c - 1 ≤ j → j < st.e - 1 →
      bufGet (consoleintrKey st 8).buf j = bufGet st.buf (j + 1)) := by
  have hIB : INPUT_BUF = 128 := rfl
  have hkey : consoleintrKey st 8 = doBackspace st := rfl
  rw [hkey]
  simp only [doBackspace]
  have hd : deselect st = { st with sel_start := -1, sel_end := -1, selecting := false } := by
    rw [deselect, if_pos ⟨hs1, hs2⟩, clearSelection, if_pos hs1]
  rw [hd]
  dsimp only
  rw [if_pos hwc]
  refine ⟨rfl, rfl, rfl, rfl, rfl, rfl, rfl, rfl, rfl, ?_, ?_⟩
  · intro j hj1 hj2
    exact shiftLeft1_untouched (st.e - st.c) st.c st.buf j (by omega)
      (fun s hs hs2 => by simp only [INPUT_BUF] at *; omega)
  · intro j hj1 hj2
    exact shiftLeft1_shift (st.e - st.c) st.c st.buf j hbl (by omega)
      (by simp only [INPUT_BUF] at *; omega) hj1 (by omega)

set_option maxRecDepth 8192 in
/-- C3 witness: with bytes a b typed, a completed selection [1, 2) and the
    caret at 1, backspace dismisses the selection and erases the byte a. -/
theorem claim_C3_witness :
    (consoleintrKey (runKeys [97, 98, 19, 228, 19]) 8).sel_start = -1 ∧
    (consoleintrKey (runKeys [97, 98, 19, 228, 19]) 8).sel_end = -1 ∧
    (consoleintrKey (runKeys [97, 98, 19, 228, 19]) 8).selecting = false ∧
    (consoleintrKey (runKeys [97, 98, 19, 228, 19]) 8).e =
      (runKeys [97, 98, 19, 228, 19]).e - 1 ∧
    (consoleintrKey (runKeys [97, 98, 19, 228, 19]) 8).c =
      (runKeys [97, 98, 19, 228, 19]).c - 1 ∧
    (consoleintrKey (runKeys [97, 98, 19, 228, 19]) 8).w =
      (runKeys [97, 98, 19, 228, 19]).w ∧
    (consoleintrKey (runKeys [97, 98, 19, 228, 19]) 8).r =
      (runKeys [97, 98, 19, 228, 19]).r ∧
    (consoleintrKey (runKeys [97, 98, 19, 228, 19]) 8).undo_buf =
      (runKeys [97, 98, 19, 228, 19]).undo_buf ∧
    (consoleintrKey (runKeys [97, 98, 19, 228, 19]) 8).undo_n =
      (if (runKeys [97, 98, 19, 228, 19]).undo_n = 0 then 2 ^ 32 - 1
       else (runKeys [97, 98, 19, 228, 19]).undo_n - 1) ∧
    (∀ j, (runKeys [97, 98, 19, 228, 19]).w ≤ j →
      j < (runKeys [97, 98, 19, 228, 19]).c - 1 →
      bufGet (consoleintrKey (runKeys [97, 98, 19, 228, 19]) 8).buf j =
        bufGet (runKeys [97, 98, 19, 228, 19]).buf j) ∧
    (∀ j, (runKeys [97, 98, 19, 228, 19]).c - 1 ≤ j →
      j < (runKeys [97, 98, 19, 228, 19]).e - 1 →
      bufGet (consoleintrKey (runKeys [97, 98, 19, 228, 19]) 8).buf j =
        bufGet (runKeys [97, 98, 19, 228, 19]).buf (j + 1)) :=
  claim_C3_theorem (runKeys [97, 98, 19, 228, 19]) (by decide) (by decide) (by decide)
    (by decide) (by decide) (by decide)

/- A session driving the undo counter past its bounds, replayed in chunks
   through explicit intermediate states. -/

def c4k1 : List Nat := List.replicate 63 97

def c4m1 : Machine :=
  { buf := (List.replicate 63 97 ++ List.replicate 65 0 : List Nat),
    r := 0, w := 0, e := 63, c := 63, selecting := false,
    sel_start := -1, sel_end := -1,
    clip_buf := (List.replicate 128 0 : List Nat),
    clip_n := 0,
    undo_buf := ((List.range 63).map (fun i => (⟨OpType.insert, 97, i⟩ : Op)) ++
      List.replicate 65 (⟨OpType.insert, 0, 0⟩ : Op) : List Op),
    undo_n := 63 }

def c4k2 : List Nat := List.replicate 63 97

def c4m2 : Machine :=
  { buf := (List.replicate 126 97 ++ [0, 0] : List Nat),
    r := 0, w := 0, e := 126, c := 126, selecting := false,
    sel_start := -1, sel_end := -1,
    clip_buf := (List.replicate 128 0 : List Nat),
    clip_n := 0,
    undo_buf := ((List.range 126).map (fun i => (⟨OpType.insert, 97, i⟩ : Op)) ++
      [(⟨OpType.insert, 0, 0⟩ : Op)] ++
      [(⟨OpType.insert, 0, 0⟩ : Op)] : List Op),
    undo_n := 126 }

def c4k3 : List Nat := List.replicate 63 228

def c4m3 : Machine :=
  { buf := (List.replicate 126 97 ++ [0, 0] : List Nat),
    r := 0, w := 0, e := 126, c := 63, selecting := false,
    sel_start := -1, sel_end := -1,
    clip_buf := (List.replicate 128 0 : List Nat),
    clip_n := 0,
    undo_buf := ((List.range 126).map (fun i => (⟨OpType.insert, 97, i⟩ : Op)) ++
      [(⟨OpType.insert, 0, 0⟩ : Op)] ++
      [(⟨OpType.insert, 0, 0⟩ : Op)] : List Op),
    undo_n := 126 }

def c4k4 : List Nat := List.replicate 63 228

def c4m4 : Machine :=
  { buf := (List.replicate 126 97 ++ [0, 0] : List Nat),
    r := 0, w := 0, e := 126, c := 0, selecting := false,
    sel_start := -1, sel_end := -1,
    clip_buf := (List.replicate 128 0 : List Nat),
    clip_n := 0,
    undo_buf := ((List.range 126).map (fun i => (⟨OpType.insert, 97, i⟩ : Op)) ++
      [(⟨OpType.insert, 0, 0⟩ : Op)] ++
      [(⟨OpType.insert, 0, 0⟩ : Op)] : List Op),
    undo_n := 126 }

def c4k5 : List Nat := [19, 229, 19, 3, 228, 19, 229, 229, 19, 22, 97, 97]

def c4m5 : Machine :=
  { buf := (List.replicate 127 97 ++ [0] : List Nat),
    r := 0, w := 0, e := 127, c := 3, selecting := false,
    sel_start := -1, sel_end := -1,
    clip_buf := ([97] ++ List.replicate 127 0 : List Nat),
    clip_n := 1,
    undo_buf := ((List.range 126).map (fun i => (⟨OpType.insert, 97, i⟩ : Op)) ++
      [(⟨OpType.delete, 97, 0⟩ : Op)] ++
      [(⟨OpType.delete, 97, 1⟩ : Op)] : List Op),
    undo_n := 128 }

def c4k6 : List Nat := List.replicate 32 26

def c4m6 : Machine :=
  { buf := (List.replicate 127 97 ++ [0] : List Nat),
    r := 0, w := 0, e := 97, c := 96, selecting := false,
    sel_start := -1, sel_end := -1,
    clip_buf := ([97] ++ List.replicate 127 0 : List Nat),
    clip_n := 1,
    undo_buf := ((List.range 126).map (fun i => (⟨OpType.insert, 97, i⟩ : Op)) ++
      [(⟨OpType.delete, 97, 0⟩ : Op)] ++
      [(⟨OpType.delete, 97, 1⟩ : Op)] : List Op),
    undo_n := 96 }

def c4k7 : List Nat := List.replicate 32 26

def c4m7 : Machine :=
  { buf := (List.replicate 127 97 ++ [0] : List Nat),
    r := 0, w := 0, e := 65, c := 64, selecting := false,
    sel_start := -1, sel_end := -1,
    clip_buf := ([97] ++ List.replicate 127 0 : List Nat),
    clip_n := 1,
    undo_buf := ((List.range 126).map (fun i => (⟨OpType.insert, 97, i⟩ : Op)) ++
      [(⟨OpType.delete, 97, 0⟩ : Op)] ++
      [(⟨OpType.delete, 97, 1⟩ : Op)] : List Op),
    undo_n := 64 }

def c4k8 : List Nat := List.replicate 32 26

def c4m8 : Machine :=
  { buf := (List.replicate 127 97 ++ [0] : List Nat),
    r := 0, w := 0, e := 33, c := 32, selecting := false,
    sel_start := -1, sel_end := -1,
    clip_buf := ([97] ++ List.replicate 127 0 : List Nat),
    clip_n := 1,
    undo_buf := ((List.range 126).map (fun i => (⟨OpType.insert, 97, i⟩ : Op)) ++
      [(⟨OpType.delete, 97, 0⟩ : Op)] ++
      [(⟨OpType.delete, 97, 1⟩ : Op)] : List Op),
    undo_n := 32 }

def c4k9 : List Nat := List.replicate 32 26

def c4m9 : Machine :=
  { buf := (List.replicate 127 97 ++ [0] : List Nat),
    r := 0, w := 0, e := 1, c := 0, selecting := false,
    sel_start := -1, sel_end := -1,
    clip_buf := ([97] ++ List.replicate 127 0 : List Nat),
    clip_n := 1,
    undo_buf := ((List.range 126).map (fun i => (⟨OpType.insert, 97, i⟩ : Op)) ++
      [(⟨OpType.delete, 97, 0⟩ : Op)] ++
      [(⟨OpType.delete, 97, 1⟩ : Op)] : List Op),
    undo_n := 0 }

def c4k10 : List Nat := [229, 8]

def c4m10 : Machine :=
  { buf := (List.replicate 127 97 ++ [0] : List Nat),
    r := 0, w := 0, e := 0, c := 0, selecting := false,
    sel_start := -1, sel_end := -1,
    clip_buf := ([97] ++ List.replicate 127 0 : List Nat),
    clip_n := 1,
    undo_buf := ((List.range 126).map (fun i => (⟨OpType.insert, 97, i⟩ : Op)) ++
      [(⟨OpType.delete, 97, 0⟩ : Op)] ++
      [(⟨OpType.delete, 97, 1⟩ : Op)] : List Op),
    undo_n := 4294967295 }

def c4keys : List Nat :=
  c4k1 ++ (c4k2 ++ (c4k3 ++ (c4k4 ++ (c4k5 ++ (c4k6 ++ (c4k7 ++ (c4k8 ++ (c4k9 ++ c4k10))))))))

theorem consoleintr_append (st : Machine) (a b : List Nat) :
    consoleintr st (a ++ b) = consoleintr (consoleintr st a) b := by
  simp [consoleintr, List.foldl_append]

set_option maxRecDepth 16384 in
theorem c4_step1 : consoleintr initState c4k1 = c4m1 := by decide

set_option maxRecDepth 16384 in
theorem c4_step2 : consoleintr c4m1 c4k2 = c4m2 := by decide

set_option maxRecDepth 16384 in
theorem c4_step3 : consoleintr c4m2 c4k3 = c4m3 := by decide

set_option maxRecDepth 16384 in
theorem c4_step4 : consoleintr c4m3 c4k4 = c4m4 := by decide

set_option maxRecDepth 16384 in
theorem c4_step5 : consoleintr c4m4 c4k5 = c4m5 := by decide

set_option maxRecDepth 16384 in
theorem c4_step6 : consoleintr c4m5 c4k6 = c4m6 := by decide

set_option maxRecDepth 16384 in
theorem c4_step7 : consoleintr c4m6 c4k7 = c4m7 := by decide

set_option maxRecDepth 16384 in
theorem c4_step8 : consoleintr c4m7 c4k8 = c4m8 := by decide

set_option maxRecDepth 16384 in
theorem c4_step9 : consoleintr c4m8 c4k9 = c4m9 := by decide

set_option maxRecDepth 16384 in
theorem c4_step10 : consoleintr c4m9 c4k10 = c4m10 := by decide

/-- C4: the undo counter is not bounded by UNDO_BUF: a 394 key session
    (126 bytes typed, cursor moves, a one byte copy, a paste over a two
    byte selection that fills the undo log, two more bytes, 128 C-Z and a
    final backspace on a log already drained to zero) drives undo.n to
    2^32 - 1 by the unguarded undo.n-- in the backspace branch, because
    backspace never logs a DELETE entry to match the pop. -/
theorem claim_C4_theorem :
    (runKeys c4keys).undo_n = 2 ^ 32 - 1 ∧ ¬ (runKeys c4keys).undo_n ≤ UNDO_BUF := by
  have h : runKeys c4keys = c4m10 := by
    rw [runKeys, c4keys, consoleintr_append, c4_step1, consoleintr_append, c4_step2, consoleintr_append, c4_step3, consoleintr_append, c4_step4, consoleintr_append, c4_step5, consoleintr_append, c4_step6, consoleintr_append, c4_step7, consoleintr_append, c4_step8, consoleintr_append, c4_step9, c4_step10]
  rw [h]
  decide

end Console
